import Mathlib

/-!
# Verification of the devinsidercoin consensus engine

A shallow embedding of the consensus engine and chain state machine of the
`devinsidercoin` full node (Go), together with proofs about its behaviour.

Modelling conventions:

* Go machine integers (`uint32`, `uint64`, `int64`) become `Nat` / `Int`;
  bit masks and shifts become the corresponding arithmetic on `Nat`
  (`x >> 24` is `x / 2 ^ 24`, `x & 0x007FFFFF` is `x % 2 ^ 23`, ...).
* `math/big.Int` values are `Nat` (or `Int` where the sign can occur).
* Go `float64` amounts are modelled as exact rationals (`ℚ`).  Every
  concrete amount appearing in the theorems below (integers, halves of
  integers, ...) is exactly representable as a `float64`, and on those the
  Go arithmetic used by the engine (add, subtract, halve, compare) agrees
  with the rational arithmetic.
* Fallible Go functions return `Option` / a product with an `Option` error;
  the receiver mutation of Go methods becomes explicit state passing.
* All strings involved are ASCII, so a Go byte string is the list of
  code points of the Lean `String`.
-/

/-! ## Bytes, hex, little-endian encoders -/

/-- Big-endian value of a byte list (how `big.Int.SetBytes` reads a hash). -/
def beNat (bs : List Nat) : Nat :=
  bs.foldl (fun acc b => acc * 256 + b) 0

/-- The value of a single hex digit, accepting both cases like Go
`encoding/hex`; `none` on a non-hex character. -/
def hexDigitVal (c : Char) : Option Nat :=
  if 48 ≤ c.toNat ∧ c.toNat ≤ 57 then some (c.toNat - 48)
  else if 97 ≤ c.toNat ∧ c.toNat ≤ 102 then some (c.toNat - 87)
  else if 65 ≤ c.toNat ∧ c.toNat ≤ 70 then some (c.toNat - 55)
  else none

/-- Strict hex decoding: `hex.DecodeString` succeeding only when the whole
string is well-formed (even length, hex digits only).  `none` models
`err != nil`. -/
def hexDecodeStrict : List Char → Option (List Nat)
  | [] => some []
  | [_] => none
  | c1 :: c2 :: rest =>
    match hexDigitVal c1, hexDigitVal c2, hexDecodeStrict rest with
    | some h, some l, some bs => some ((h * 16 + l) :: bs)
    | _, _, _ => none

/-- Prefix hex decoding: the bytes `hex.DecodeString` returns even when it
also returns an error (Go decodes complete leading pairs and stops at the
first bad pair or lone trailing digit).  Used where the Go code ignores the
error (`decoded, _ := hex.DecodeString(...)`). -/
def hexDecodePartial : List Char → List Nat
  | [] => []
  | [_] => []
  | c1 :: c2 :: rest =>
    match hexDigitVal c1, hexDigitVal c2 with
    | some h, some l => (h * 16 + l) :: hexDecodePartial rest
    | _, _ => []

/-- Lowercase hex character of a nibble. -/
def nibbleChar (n : Nat) : Char :=
  Char.ofNat (if n < 10 then 48 + n else 87 + n)

/-- Lowercase hex encoding of a byte list (`hex.EncodeToString`). -/
def hexEncode (bs : List Nat) : String :=
  ⟨bs.flatMap (fun b => [nibbleChar (b / 16), nibbleChar (b % 16)])⟩

/-- Little-endian 4-byte encoding of a `uint32`
(`binary.LittleEndian.PutUint32`). -/
def le32 (v : Nat) : List Nat :=
  [v % 256, v / 256 % 256, v / 256 ^ 2 % 256, v / 256 ^ 3 % 256]

/-- Little-endian 8-byte encoding of a `uint64`
(`binary.LittleEndian.PutUint64`). -/
def le64 (v : Nat) : List Nat :=
  [v % 256, v / 256 % 256, v / 256 ^ 2 % 256, v / 256 ^ 3 % 256,
   v / 256 ^ 4 % 256, v / 256 ^ 5 % 256, v / 256 ^ 6 % 256, v / 256 ^ 7 % 256]

/-- Reinterpretation of an `int64` as a `uint64` (two's complement), used by
`uint64(h.Timestamp)`. -/
def u64ofInt (i : Int) : Nat :=
  (i.emod (2 ^ 64)).toNat

/-- Structural worker for `byteLen`; the fuel only discharges termination
(dividing by 256 needs at most `n` steps). -/
def byteLenGo : Nat → Nat → Nat
  | _, 0 => 0
  | n, fuel + 1 => if n = 0 then 0 else byteLenGo (n / 256) fuel + 1

/-- Length of the minimal big-endian byte representation of a natural
number: `len(big.Int.Bytes())`, and also the byte length computed by the
compact encoders. -/
def byteLen (n : Nat) : Nat :=
  byteLenGo n n

/-! ## Compact-target arithmetic

The live `pow.go` of the repository (the revision the current `chain.go`
compiles against): `BitsToTarget`, `TargetToBits`, `CheckProofOfWork`,
`ProgressiveDifficultyFloor`, `ApplyProgressiveDifficulty`; and the older
revision's pair `CompactToBig` / `BigToCompact`. -/

/-- Compact "bits" to 256-bit target.  `exponent := bits >> 24`,
`mantissa := bits & 0x007FFFFF`; shift the mantissa by `8*(3-exponent)`
right or `8*(exponent-3)` left. -/
def BitsToTarget (bits : Nat) : Nat :=
  let exponent := bits / 2 ^ 24
  let mantissa := bits % 2 ^ 23
  if exponent ≤ 3 then mantissa / 256 ^ (3 - exponent)
  else mantissa * 256 ^ (exponent - 3)

/-- Target back to compact bits.  `exponent` is the byte length; the
mantissa is the value of the top three bytes (the whole value when there
are at most three; note the Go code does NOT left-align a short mantissa);
if the mantissa's high bit is set, shift it right a byte and bump the
exponent. -/
def TargetToBits (target : Nat) : Nat :=
  if target = 0 then 0
  else
    let exponent := byteLen target
    let mantissa := target / 256 ^ (exponent - 3)
    if 2 ^ 23 ≤ mantissa then ((exponent + 1) * 2 ^ 24) + mantissa / 256
    else (exponent * 2 ^ 24) + mantissa

/-- Proof-of-work check of the live `pow.go`: hex-decode the hash, reject
unless it is exactly 32 bytes, then compare big-endian value with the
decoded target. -/
def CheckProofOfWork (hashHex : String) (bits : Nat) : Bool :=
  match hexDecodeStrict hashHex.data with
  | none => false
  | some hashBytes =>
    if hashBytes.length ≠ 32 then false
    else beNat hashBytes ≤ BitsToTarget bits

/-- Progressive difficulty floor: the minimum bits (maximum target) allowed
at a height.  Epoch `height / epochBlocks`, clamped at 60; the floor target
is the minimum-difficulty target shifted right by the epoch, raised to 1 if
it would be zero. -/
def ProgressiveDifficultyFloor (height epochBlocks : Nat) (minBits : Nat) : Nat :=
  if epochBlocks = 0 then minBits
  else
    let epoch := height / epochBlocks
    if epoch = 0 then minBits
    else
      let epoch := if epoch > 60 then 60 else epoch
      let maxTarget := BitsToTarget minBits
      let floorTarget := maxTarget / 2 ^ epoch
      let floorTarget := if floorTarget = 0 then 1 else floorTarget
      TargetToBits floorTarget

/-- Compact to `big.Int` from the older `pow.go` revision; kept because the
claims also name this pair.  It honours the sign bit `0x00800000`. -/
def CompactToBig (compact : Nat) : Int :=
  let mantissa := compact % 2 ^ 23
  let isNegative := compact / 2 ^ 23 % 2 = 1
  let exponent := compact / 2 ^ 24
  let bn : Nat :=
    if exponent ≤ 3 then mantissa / 256 ^ (3 - exponent)
    else mantissa * 256 ^ (exponent - 3)
  if isNegative then -(bn : Int) else (bn : Int)

/-- `big.Int` to compact from the older `pow.go` revision.  `b` stands for
`target.Bytes()` (the magnitude's big-endian bytes); a short mantissa IS
left-aligned here (`word |= v << (8*(2-i))`).  The high-bit fixup shifts the
combined word, faithfully to the source. -/
def BigToCompact (target : Int) : Nat :=
  if target = 0 then 0
  else
    let b := target.natAbs
    let size := byteLen b
    let compact :=
      if size ≤ 3 then size * 2 ^ 24 + b * 256 ^ (3 - size)
      else size * 2 ^ 24 + b / 256 ^ (size - 3)
    if compact / 2 ^ 23 % 2 = 1 then
      (size + 1) * 2 ^ 24 + (compact / 256) % 2 ^ 23
    else compact

/-! ## SHA-256

An executable SHA-256 over byte lists (FIPS 180-4), used by the header and
transaction codec (`crypto/sha256`).  Words are `Nat` reduced mod `2 ^ 32`. -/

/-- Rotation of a 32-bit word to the right by `n`, in arithmetic form. -/
def rotr32 (x n : Nat) : Nat :=
  x / 2 ^ n + x % 2 ^ n * 2 ^ (32 - n)

/-- The 64 round constants of SHA-256, written in decimal. -/
def sha256K : List Nat :=
  [1116352408, 1899447441, 3049323471, 3921009573, 961987163,
   1508970993, 2453635748, 2870763221, 3624381080, 310598401,
   607225278, 1426881987, 1925078388, 2162078206, 2614888103,
   3248222580, 3835390401, 4022224774, 264347078, 604807628,
   770255983, 1249150122, 1555081692, 1996064986, 2554220882,
   2821834349, 2952996808, 3210313671, 3336571891, 3584528711,
   113926993, 338241895, 666307205, 773529912, 1294757372,
   1396182291, 1695183700, 1986661051, 2177026350, 2456956037,
   2730485921, 2820302411, 3259730800, 3345764771, 3516065817,
   3600352804, 4094571909, 275423344, 430227734, 506948616,
   659060556, 883997877, 958139571, 1322822218, 1537002063,
   1747873779, 1955562222, 2024104815, 2227730452, 2361852424,
   2428436474, 2756734187, 3204031479, 3329325298]

/-- The initial chaining state of SHA-256, written in decimal. -/
def sha256H0 : List Nat :=
  [1779033703, 3144134277, 1013904242, 2773480762, 1359893119,
   2600822924, 528734635, 1541459225]

/-- Message padding: append `0x80`, zeros to 56 mod 64, and the 64-bit
big-endian bit length. -/
def sha256Pad (msg : List Nat) : List Nat :=
  let len := msg.length
  let zeros := (55 + 64 - len % 64) % 64
  msg ++ 0x80 :: List.replicate zeros 0 ++
    (le64 (len * 8)).reverse

/-- Big-endian 32-bit words of a byte list (length a multiple of 4). -/
def wordsBE : List Nat → List Nat
  | b0 :: b1 :: b2 :: b3 :: rest => (((b0 * 256 + b1) * 256 + b2) * 256 + b3) :: wordsBE rest
  | _ => []

/-- Extension of the 16-word block to the 64-entry message schedule. -/
def sha256Extend (w : List Nat) : Nat → List Nat
  | 0 => w
  | k + 1 =>
    let n := w.length
    let w2 := w.getD (n - 2) 0
    let w7 := w.getD (n - 7) 0
    let w15 := w.getD (n - 15) 0
    let w16 := w.getD (n - 16) 0
    let s0 := rotr32 w15 7 ^^^ rotr32 w15 18 ^^^ w15 / 2 ^ 3
    let s1 := rotr32 w2 17 ^^^ rotr32 w2 19 ^^^ w2 / 2 ^ 10
    sha256Extend (w ++ [(w16 + s0 + w7 + s1) % 2 ^ 32]) k

/-- One compression round: state is the eight working variables. -/
def sha256Round (st : List Nat) (kw : Nat × Nat) : List Nat :=
  match st with
  | [a, b, c, d, e, f, g, h] =>
    let s1 := rotr32 e 6 ^^^ rotr32 e 11 ^^^ rotr32 e 25
    let ch := (e &&& f) ^^^ ((2 ^ 32 - 1 - e) &&& g)
    let t1 := (h + s1 + ch + kw.1 + kw.2) % 2 ^ 32
    let s0 := rotr32 a 2 ^^^ rotr32 a 13 ^^^ rotr32 a 22
    let maj := (a &&& b) ^^^ (a &&& c) ^^^ (b &&& c)
    let t2 := (s0 + maj) % 2 ^ 32
    [(t1 + t2) % 2 ^ 32, a, b, c, (d + t1) % 2 ^ 32, e, f, g]
  | other => other

/-- Compression of one 64-byte block into the chaining state. -/
def sha256Block (h : List Nat) (block : List Nat) : List Nat :=
  let w := sha256Extend (wordsBE block) 48
  let st := (sha256K.zip w).foldl sha256Round h
  (h.zip st).map (fun p => (p.1 + p.2) % 2 ^ 32)

/-- Structural worker for `chunks64`; the fuel only discharges termination
(each step drops at least one byte). -/
def chunks64Go : List Nat → Nat → List (List Nat)
  | bs, 0 => if bs.length = 0 then [] else [bs]
  | bs, fuel + 1 => if bs.length = 0 then [] else bs.take 64 :: chunks64Go (bs.drop 64) fuel

/-- Splitting into 64-byte blocks. -/
def chunks64 (bs : List Nat) : List (List Nat) :=
  chunks64Go bs bs.length

/-- SHA-256 digest (32 bytes) of a byte list. -/
def sha256 (msg : List Nat) : List Nat :=
  let final := (chunks64 (sha256Pad msg)).foldl sha256Block sha256H0
  final.flatMap (fun w => [w / 2 ^ 24 % 256, w / 2 ^ 16 % 256, w / 2 ^ 8 % 256, w % 256])

/-- Double SHA-256 (`SHA256d` in the source). -/
def SHA256d (data : List Nat) : List Nat :=
  sha256 (sha256 data)

/-! ## Data model

The `blockchain` package types (`block.go`, `pos.go`, `config.go`).  Field
names are the Go field names (lower-cased, `Type`/`From`/`To` prefixed with
`tx` since they collide with Lean keywords). -/

/-- Network parameters (`config.NetworkConfig`), restricted to the fields
the consensus engine reads.  `genesisUnix` is the Unix time that
`time.Parse(time.RFC3339, cfg.GenesisTimestamp)` yields. -/
structure NetworkConfig where
  initialReward : ℚ
  halvingInterval : Nat
  maxSupply : ℚ
  minDifficultyBits : Nat
  genesisUnix : Int
  minStakeAmount : ℚ
  maxBlockSize : Nat
  maxBlockTransactions : Nat
  posMinThreshold : ℚ
  difficultyEpochBlocks : Nat
  deriving DecidableEq

/-- A transaction output (`TxOutput`). -/
structure TxOutput where
  address : String
  amount : ℚ
  deriving DecidableEq

/-- A transaction (`Transaction`); `txType` ranges over "coinbase",
"transfer", "stake", "unstake", "pos_reward". -/
structure Transaction where
  txid : String
  txType : String
  txFrom : String
  txTo : String
  amount : ℚ
  fee : ℚ
  timestamp : Int
  signature : String
  outputs : List TxOutput
  deriving DecidableEq

/-- A block header (`BlockHeader`). -/
structure BlockHeader where
  version : Nat
  prevHash : String
  merkleRoot : String
  timestamp : Int
  bits : Nat
  nonce : Nat
  height : Nat
  deriving DecidableEq

/-- A full block (`Block`). -/
structure Block where
  header : BlockHeader
  transactions : List Transaction
  hash : String
  deriving DecidableEq

/-- A staking record (`Stake`). -/
structure Stake where
  address : String
  amount : ℚ
  blockHeight : Nat
  deriving DecidableEq

/-! ## Header and transaction codec (`block.go`) -/

/-- ASCII bytes of a string. -/
def strBytes (s : String) : List Nat :=
  s.data.map Char.toNat

/-- The `padHashBytes` helper: partial hex decode, left-pad with zeros to 32
bytes, truncate to 32 otherwise. -/
def padHashBytes (hexStr : String) : List Nat :=
  let decoded := hexDecodePartial hexStr.data
  if decoded.length < 32 then List.replicate (32 - decoded.length) 0 ++ decoded
  else decoded.take 32

/-- Canonical header serialization (`BlockHeader.Serialize`): little-endian
version, 32-byte previous hash, 32-byte merkle root, little-endian
timestamp (as `uint64`), bits, nonce.  The `height` field is not written. -/
def BlockHeader.Serialize (h : BlockHeader) : List Nat :=
  le32 h.version ++ padHashBytes h.prevHash ++ padHashBytes h.merkleRoot ++
    le64 (u64ofInt h.timestamp) ++ le32 h.bits ++ le64 h.nonce

/-- Header hash (`BlockHeader.ComputeHash`): hex of the double SHA-256 of
the serialization. -/
def BlockHeader.ComputeHash (h : BlockHeader) : String :=
  hexEncode (SHA256d h.Serialize)

/-- JSON string literal.  The engine only ever marshals plain ASCII
addresses, hex hashes and type tags, on which Go's encoder adds no
escapes. -/
def jsonStr (s : String) : String :=
  "\"" ++ s ++ "\""

/-- Zero-padding of a digit string on the left to length `k`. -/
def padZeros (s : String) (k : Nat) : String :=
  ⟨List.replicate (k - s.length) '0'⟩ ++ s

/-- Decimal rendering of an amount, as Go `encoding/json` renders the
`float64`.  Exact for every amount with a terminating decimal expansion (in
particular for every dyadic rational in the `float64` range the engine
produces); the engine never marshals a value on the fallback branch. -/
def amountJSON (q : ℚ) : String :=
  let sign := if q < 0 then "-" else ""
  let n := q.num.natAbs
  let d := q.den
  if d = 1 then sign ++ toString n
  else
    match (List.range 64).find? (fun k => 10 ^ k % d = 0) with
    | some k =>
      let scaled := n * (10 ^ k / d)
      sign ++ toString (scaled / 10 ^ k) ++ "." ++ padZeros (toString (scaled % 10 ^ k)) k
    | none => sign ++ toString n ++ "div" ++ toString d

/-- Go `json.Marshal` of a `TxOutput`. -/
def goMarshalTxOutput (o : TxOutput) : String :=
  "\x7b\"address\":" ++ jsonStr o.address ++ ",\"amount\":" ++ amountJSON o.amount ++ "\x7d"

/-- Go `json.Marshal` of a `Transaction`: declaration field order, with the
`omitempty` fields (`from`, `to`, `signature`, `outputs`) dropped when
empty. -/
def goMarshalTransaction (tx : Transaction) : String :=
  "\x7b\"txid\":" ++ jsonStr tx.txid ++
    ",\"type\":" ++ jsonStr tx.txType ++
    (if tx.txFrom = "" then "" else ",\"from\":" ++ jsonStr tx.txFrom) ++
    (if tx.txTo = "" then "" else ",\"to\":" ++ jsonStr tx.txTo) ++
    ",\"amount\":" ++ amountJSON tx.amount ++
    ",\"fee\":" ++ amountJSON tx.fee ++
    ",\"timestamp\":" ++ toString tx.timestamp ++
    (if tx.signature = "" then "" else ",\"signature\":" ++ jsonStr tx.signature) ++
    (if tx.outputs = [] then ""
     else ",\"outputs\":[" ++ String.intercalate "," (tx.outputs.map goMarshalTxOutput) ++ "]") ++
    "\x7d"

/-- The txid pre-image (`Transaction.ComputeTxID`): canonical JSON of the
anonymous struct with fields type, from, to, amount, timestamp — no
`omitempty`, so empty strings are kept. -/
def txidPreimage (tx : Transaction) : String :=
  "\x7b\"type\":" ++ jsonStr tx.txType ++
    ",\"from\":" ++ jsonStr tx.txFrom ++
    ",\"to\":" ++ jsonStr tx.txTo ++
    ",\"amount\":" ++ amountJSON tx.amount ++
    ",\"timestamp\":" ++ toString tx.timestamp ++ "\x7d"

/-- Deterministic transaction id: hex of the double SHA-256 of the txid
pre-image. -/
def Transaction.ComputeTxID (tx : Transaction) : String :=
  hexEncode (SHA256d (strBytes (txidPreimage tx)))

/-- One pairwise merkle reduction pass, duplicating an odd trailing
element. -/
def merklePass : List (List Nat) → List (List Nat)
  | h1 :: h2 :: rest => SHA256d (h1 ++ h2) :: merklePass rest
  | [h1] => [SHA256d (h1 ++ h1)]
  | [] => []

/-- The merkle reduction loop.  Each pass at least halves the list, so
`fuel := initial length` always suffices to reach a single hash; the fuel
only discharges termination. -/
def merkleLoop : List (List Nat) → Nat → List Nat
  | hs, 0 => hs.headD []
  | hs, fuel + 1 => if hs.length ≤ 1 then hs.headD [] else merkleLoop (merklePass hs) fuel

/-- Merkle root (`ComputeMerkleRoot`): SHA-256d of each transaction's JSON,
reduced pairwise; 64 zero hex characters for the empty list. -/
def ComputeMerkleRoot (txs : List Transaction) : String :=
  if txs = [] then ⟨List.replicate 64 '0'⟩
  else
    let hashes := txs.map (fun tx => SHA256d (strBytes (goMarshalTransaction tx)))
    hexEncode (merkleLoop hashes hashes.length)

/-- Go `json.Marshal` of a `BlockHeader`. -/
def goMarshalHeader (h : BlockHeader) : String :=
  "\x7b\"version\":" ++ toString h.version ++
    ",\"prev_hash\":" ++ jsonStr h.prevHash ++
    ",\"merkle_root\":" ++ jsonStr h.merkleRoot ++
    ",\"timestamp\":" ++ toString h.timestamp ++
    ",\"bits\":" ++ toString h.bits ++
    ",\"nonce\":" ++ toString h.nonce ++
    ",\"height\":" ++ toString h.height ++ "\x7d"

/-- Go `json.Marshal` of a `Block` (used for the block-size limit). -/
def goMarshalBlock (b : Block) : String :=
  "\x7b\"header\":" ++ goMarshalHeader b.header ++
    ",\"transactions\":[" ++ String.intercalate "," (b.transactions.map goMarshalTransaction) ++
    "],\"hash\":" ++ jsonStr b.hash ++ "\x7d"

/-! ## Stake ledger (`pos.go`) and balance map

Go maps become association lists; `getBal`/`setBal` are map read (zero
default) and map assignment. -/

/-- Balance read, `bc.Balances[addr]` (missing key reads as zero). -/
def getBal (bs : List (String × ℚ)) (a : String) : ℚ :=
  match bs.find? (fun p => p.1 == a) with
  | some p => p.2
  | none => 0

/-- Balance write, `bc.Balances[addr] = v`. -/
def setBal (bs : List (String × ℚ)) (a : String) (v : ℚ) : List (String × ℚ) :=
  if (bs.find? (fun p => p.1 == a)).isSome then
    bs.map (fun p => if p.1 == a then (p.1, v) else p)
  else bs ++ [(a, v)]

/-- `StakeManager.GetStake`. -/
def GetStake (stakes : List Stake) (address : String) : ℚ :=
  match stakes.find? (fun s => s.address == address) with
  | some s => s.amount
  | none => 0

/-- `StakeManager.AddStake`: increase an existing stake or create one
remembering the height. -/
def AddStake (stakes : List Stake) (address : String) (amount : ℚ) (height : Nat) :
    List Stake :=
  if (stakes.find? (fun s => s.address == address)).isSome then
    stakes.map (fun s => if s.address == address then { s with amount := s.amount + amount } else s)
  else stakes ++ [⟨address, amount, height⟩]

/-- `StakeManager.RemoveStake`: error when absent or insufficient; delete
the record when the remainder drops under `0.00000001`. -/
def RemoveStake (stakes : List Stake) (address : String) (amount : ℚ) :
    Option String × List Stake :=
  match stakes.find? (fun s => s.address == address) with
  | none => (some "no stake found", stakes)
  | some s =>
    if s.amount < amount then (some "insufficient stake", stakes)
    else
      let remaining := s.amount - amount
      if remaining < 1 / 100000000 then
        (none, stakes.filter (fun t => !(t.address == address)))
      else
        (none, stakes.map (fun t => if t.address == address then { t with amount := remaining } else t))

/-! ## Chain state machine (`chain.go`, `genesis.go`) -/

/-- The in-memory chain state together with the committed prefix of the
store (`blocks` bucket, block `h` at index `h`; `meta/best_height` is
`committed.length - 1`). -/
structure Blockchain where
  cfg : NetworkConfig
  committed : List Block
  balances : List (String × ℚ)
  stakes : List Stake
  mempool : List Transaction
  totalMinted : ℚ
  lastBlock : Option Block
  deriving DecidableEq

/-- `Store.GetBestHeight`: −1 when the meta bucket has no `best_height`
(no block ever committed). -/
def storeGetBestHeight (s : Blockchain) : Int :=
  (s.committed.length : Int) - 1

/-- `Store.GetBlockCount`. -/
def storeGetBlockCount (s : Blockchain) : Nat :=
  s.committed.length

/-- `Blockchain.GetBestHeight`: the store height clamped at zero. -/
def Blockchain.GetBestHeight (s : Blockchain) : Nat :=
  let h := storeGetBestHeight s
  if h < 0 then 0 else h.toNat

/-- The genesis block (`CreateGenesisBlock`): a zero-amount coinbase to the
literal address "genesis", previous hash 64 zero characters, minimum
difficulty, nonce 0, height 0. -/
def CreateGenesisBlock (cfg : NetworkConfig) : Block :=
  let coinbase0 : Transaction :=
    { txid := "", txType := "coinbase", txFrom := "", txTo := "genesis",
      amount := 0, fee := 0, timestamp := cfg.genesisUnix, signature := "",
      outputs := [⟨"genesis", 0⟩] }
  let coinbase := { coinbase0 with txid := coinbase0.ComputeTxID }
  let header : BlockHeader :=
    { version := 1, prevHash := ⟨List.replicate 64 '0'⟩,
      merkleRoot := ComputeMerkleRoot [coinbase],
      timestamp := cfg.genesisUnix, bits := cfg.minDifficultyBits,
      nonce := 0, height := 0 }
  { header := header, transactions := [coinbase], hash := header.ComputeHash }

/-- Bootstrap on an empty store (`NewBlockchain`, no-data branch): create
the genesis block and commit it; balances, stakes, mempool empty, nothing
minted. -/
def initChain (cfg : NetworkConfig) : Blockchain :=
  { cfg := cfg, committed := [CreateGenesisBlock cfg], balances := [],
    stakes := [], mempool := [], totalMinted := 0,
    lastBlock := some (CreateGenesisBlock cfg) }

/-- The halving loop of `CalcBlockReward` (`reward /= 2`, `halvings`
times). -/
def halveLoop (reward : ℚ) : Nat → ℚ
  | 0 => reward
  | k + 1 => halveLoop (reward / 2) k

/-- `Blockchain.CalcBlockReward` as a function of the configuration and the
current `TotalMinted`. -/
def CalcBlockReward (cfg : NetworkConfig) (totalMinted : ℚ) (height : Nat) : ℚ :=
  if cfg.maxSupply ≤ totalMinted then 0
  else
    let halvings := height / cfg.halvingInterval
    let reward := halveLoop cfg.initialReward halvings
    if reward < 1 / 100000000 then 0
    else
      let remaining := cfg.maxSupply - totalMinted
      if remaining < reward then remaining else reward

/-- The named admission errors of `AddToMempool` (the four `fmt.Errorf`
sites). -/
inductive MempoolErr where
  | insufficientBalance
  | insufficientAvailable
  | belowMinStake
  | belowPosThreshold
  deriving DecidableEq

/-- `Blockchain.AddToMempool`: admission checks for transfers and stakes,
then append. -/
def Blockchain.AddToMempool (s : Blockchain) (tx : Transaction) :
    Option MempoolErr × Blockchain :=
  if tx.txType = "transfer" ∧ getBal s.balances tx.txFrom < tx.amount + tx.fee then
    (some .insufficientBalance, s)
  else if tx.txType = "stake" ∧
      getBal s.balances tx.txFrom - GetStake s.stakes tx.txFrom < tx.amount then
    (some .insufficientAvailable, s)
  else if tx.txType = "stake" ∧ tx.amount < s.cfg.minStakeAmount then
    (some .belowMinStake, s)
  else if tx.txType = "stake" ∧
      GetStake s.stakes tx.txFrom + tx.amount < s.cfg.posMinThreshold then
    (some .belowPosThreshold, s)
  else (none, { s with mempool := s.mempool ++ [tx] })

/-- `Blockchain.validateBlock`: height, previous hash, recomputed hash,
proof of work, transaction count, serialized size, progressive floor. -/
def Blockchain.validateBlock (s : Blockchain) (b : Block) : Option String :=
  let expectedHeight := storeGetBlockCount s
  let prevMismatch : Bool :=
    match s.lastBlock with
    | some lb => b.header.prevHash != lb.hash
    | none => false
  if b.header.height ≠ expectedHeight then some "bad height"
  else if 0 < expectedHeight ∧ prevMismatch then some "bad prev hash"
  else if b.hash ≠ b.header.ComputeHash then some "bad hash"
  else if ¬ CheckProofOfWork b.hash b.header.bits then some "insufficient proof of work"
  else if s.cfg.maxBlockTransactions < b.transactions.length then some "too many transactions"
  else if s.cfg.maxBlockSize < (goMarshalBlock b).length then some "block too large"
  else if BitsToTarget (ProgressiveDifficultyFloor b.header.height
      s.cfg.difficultyEpochBlocks s.cfg.minDifficultyBits) < BitsToTarget b.header.bits then
    some "difficulty below progressive floor"
  else none

/-- The per-transaction application step of `AddBlock`: balances, stakes
and the minted tally of the block, switching on the transaction type.  The
error of `RemoveStake` is discarded exactly as the source discards it. -/
def applyTx (height : Nat) (st : List (String × ℚ) × List Stake × ℚ) (tx : Transaction) :
    List (String × ℚ) × List Stake × ℚ :=
  let (bals, stakes, minted) := st
  if tx.txType = "coinbase" ∨ tx.txType = "pos_reward" then
    tx.outputs.foldl
      (fun acc out =>
        (setBal acc.1 out.address (getBal acc.1 out.address + out.amount), acc.2.1,
          acc.2.2 + out.amount))
      (bals, stakes, minted)
  else if tx.txType = "transfer" then
    let bals := setBal bals tx.txFrom (getBal bals tx.txFrom - (tx.amount + tx.fee))
    let bals := setBal bals tx.txTo (getBal bals tx.txTo + tx.amount)
    (bals, stakes, minted)
  else if tx.txType = "stake" then
    let bals := setBal bals tx.txFrom (getBal bals tx.txFrom - tx.amount)
    (bals, AddStake stakes tx.txFrom tx.amount height, minted)
  else if tx.txType = "unstake" then
    let stakes := (RemoveStake stakes tx.txFrom tx.amount).2
    let bals := setBal bals tx.txFrom (getBal bals tx.txFrom + tx.amount)
    (bals, stakes, minted)
  else (bals, stakes, minted)

/-- `Blockchain.AddBlock`.  `commitOk` stands for the success of the BoltDB
transaction in `Store.CommitBlock`; the Go method mutates the receiver's
balances, stakes and `TotalMinted` before that commit and returns the
`db commit failed` error without undoing them, which the state returned
alongside the error makes explicit. -/
def Blockchain.AddBlock (s : Blockchain) (b : Block) (commitOk : Bool) :
    Option String × Blockchain :=
  match s.validateBlock b with
  | some e => (some ("validation failed: " ++ e), s)
  | none =>
    let (bals, stakes, minted) :=
      b.transactions.foldl (applyTx b.header.height) (s.balances, s.stakes, 0)
    let s1 := { s with balances := bals, stakes := stakes,
                       totalMinted := s.totalMinted + minted }
    if commitOk then
      let txids := b.transactions.map Transaction.txid
      (none,
       { s1 with
         mempool := s1.mempool.filter (fun t => !(txids.contains t.txid)),
         lastBlock := some b,
         committed := s1.committed ++ [b] })
    else (some "db commit failed", s1)

/-! ## Claim-specific definitions -/

/-- The testnet parameters of the specification's test scenarios;
`genesis_timestamp` "2026-02-24T00:00:00Z" is Unix time 1771891200. -/
def testnetConfig : NetworkConfig :=
  { initialReward := 50, halvingInterval := 100, maxSupply := 1000000,
    minDifficultyBits := 0x1F00FFFF, genesisUnix := 1771891200,
    minStakeAmount := 10, maxBlockSize := 8388608, maxBlockTransactions := 10000,
    posMinThreshold := 10, difficultyEpochBlocks := 1000 }

/-- The testnet parameters with a minimum difficulty whose decoded target is
`2 ^ 256`, so that every 32-byte hash passes the proof-of-work check; used
to build concrete valid blocks without mining. -/
def easyConfig : NetworkConfig :=
  { testnetConfig with minDifficultyBits := 0x23000001 }

/-- A concrete coinbase transaction paying 5 coins to "miner". -/
def coinbaseTx1 : Transaction :=
  { txid := "t1", txType := "coinbase", txFrom := "", txTo := "miner",
    amount := 5, fee := 0, timestamp := 1771891260, signature := "",
    outputs := [⟨"miner", 5⟩] }

/-- A concrete block at height 1 on top of the `easyConfig` genesis; its
stored hash is the recomputed header hash and its target equals the
progressive floor, so `validateBlock` accepts it. -/
def block1Easy : Block :=
  let header : BlockHeader :=
    { version := 2, prevHash := (CreateGenesisBlock easyConfig).hash,
      merkleRoot := ComputeMerkleRoot [coinbaseTx1], timestamp := 1771891260,
      bits := 0x23000001, nonce := 0, height := 1 }
  { header := header, transactions := [coinbaseTx1], hash := header.ComputeHash }

/-- The chain state over an empty store, before the genesis block is
committed (the state in which `Store.GetBestHeight` answers −1). -/
def preGenesisChain (cfg : NetworkConfig) : Blockchain :=
  { cfg := cfg, committed := [], balances := [], stakes := [], mempool := [],
    totalMinted := 0, lastBlock := none }

/-- The block's decoded target does not exceed the decoded progressive
floor target for its height. -/
def blockMeetsDifficulty (cfg : NetworkConfig) (b : Block) : Prop :=
  BitsToTarget b.header.bits ≤
    BitsToTarget (ProgressiveDifficultyFloor b.header.height
      cfg.difficultyEpochBlocks cfg.minDifficultyBits)

/-- The difficulty invariant of the committed chain: every committed block
is at or under the progressive floor, and every committed block after the
genesis also passes the proof-of-work check (hash decodes to 32 bytes whose
big-endian value is at most the decoded target). -/
def chainDifficultyInv (cfg : NetworkConfig) (blocks : List Block) : Prop :=
  (∀ b ∈ blocks, blockMeetsDifficulty cfg b) ∧
  ∀ b ∈ blocks.drop 1, CheckProofOfWork b.hash b.header.bits = true

/-- A compact value in canonical form with a non-overflowing mantissa: the
exponent is at least one, the mantissa's top byte is nonzero (left-aligned,
no leading zero byte) with the high bit clear, and for exponents under
three the bytes beyond the significant ones are zero (so no precision is
lost on decoding). -/
def canonicalCompact (b : Nat) : Prop :=
  b < 2 ^ 32 ∧ 1 ≤ b / 2 ^ 24 ∧ 2 ^ 16 ≤ b % 2 ^ 24 ∧ b % 2 ^ 24 < 2 ^ 23 ∧
    (b / 2 ^ 24 ≤ 3 → b % 2 ^ 24 % 256 ^ (3 - b / 2 ^ 24) = 0)

instance (cfg : NetworkConfig) (b : Block) : Decidable (blockMeetsDifficulty cfg b) := by
  unfold blockMeetsDifficulty
  infer_instance

instance (cfg : NetworkConfig) (blocks : List Block) :
    Decidable (chainDifficultyInv cfg blocks) := by
  unfold chainDifficultyInv
  infer_instance

instance (b : Nat) : Decidable (canonicalCompact b) := by
  unfold canonicalCompact
  infer_instance

attribute [local semireducible] Rat.add Rat.sub Rat.mul Rat.inv

/-! ## Helper lemmas -/

/-- The padded hash field of the header pre-image is always 32 bytes. -/
theorem padHashBytes_length (s : String) : (padHashBytes s).length = 32 := by
  simp only [padHashBytes]
  split
  · simp only [List.length_append, List.length_replicate]
    omega
  · simp only [List.length_take]
    omega

/-- The halving loop computes division by a power of two. -/
theorem halveLoop_eq (r : ℚ) (k : Nat) : halveLoop r k = r / 2 ^ k := by
  induction k generalizing r with
  | zero => simp [halveLoop]
  | succ n ih =>
    rw [halveLoop, ih, div_div, pow_succ]
    ring_nf

/-! ## Claim theorems -/

/-- C3: `AddToMempool` rejects (returns an error and leaves the state,
in particular the mempool, unchanged) exactly when the transaction is a
transfer with `balances[from] < amount + fee`, or a stake with
`balances[from] − stakes_of(from) < amount`, with `amount < min_stake`, or
with `stakes_of(from) + amount < pos_min_threshold`; every other
transaction (unstake, coinbase, pos_reward included) is appended to the end
of the mempool. -/
theorem addToMempool_rejects_iff (s : Blockchain) (tx : Transaction) :
    ((s.AddToMempool tx).1.isSome ↔
      (tx.txType = "transfer" ∧ getBal s.balances tx.txFrom < tx.amount + tx.fee) ∨
      (tx.txType = "stake" ∧
        (getBal s.balances tx.txFrom - GetStake s.stakes tx.txFrom < tx.amount ∨
         tx.amount < s.cfg.minStakeAmount ∨
         GetStake s.stakes tx.txFrom + tx.amount < s.cfg.posMinThreshold))) ∧
    ((s.AddToMempool tx).1.isSome → (s.AddToMempool tx).2 = s) ∧
    ((s.AddToMempool tx).1 = none →
      (s.AddToMempool tx).2 = { s with mempool := s.mempool ++ [tx] }) := by
  unfold Blockchain.AddToMempool
  split_ifs with h1 h2 h3 h4 <;> simp <;> push_neg at * <;> tauto

/-- C4 (amended: the pre-image is 88 bytes, not 76): the canonical
serialization is the fixed 88-byte concatenation of little-endian version,
32-byte previous hash, 32-byte merkle root, little-endian timestamp (as
`uint64`), bits and nonce; the `height` field is not part of the pre-image;
and the block hash is the double SHA-256 of exactly this encoding. -/
theorem header_serialization_88_bytes (h : BlockHeader) :
    h.Serialize.length = 88 ∧
    h.Serialize =
      le32 h.version ++ padHashBytes h.prevHash ++ padHashBytes h.merkleRoot ++
        le64 (u64ofInt h.timestamp) ++ le32 h.bits ++ le64 h.nonce ∧
    (∀ ht : Nat, BlockHeader.Serialize { h with height := ht } = h.Serialize) ∧
    h.ComputeHash = hexEncode (SHA256d h.Serialize) := by
  refine ⟨?_, rfl, fun ht => rfl, rfl⟩
  simp [BlockHeader.Serialize, le32, le64, padHashBytes_length]

/-- C4, counterexample to the claim as stated: the hash pre-image of a
concrete header has 88 bytes, not 76. -/
theorem header_serialization_not_76 :
    (BlockHeader.Serialize ⟨1, "", "", 0, 0, 0, 0⟩).length ≠ 76 := by decide

/-- C5: whenever the hex decoding of the hash string does not yield exactly
32 bytes (shorter, longer or non-hex strings), `CheckProofOfWork` is false,
whatever the bits argument. -/
theorem checkProofOfWork_rejects_bad_length (s : String) (bits : Nat)
    (h : ∀ bs, hexDecodeStrict s.data = some bs → bs.length ≠ 32) :
    CheckProofOfWork s bits = false := by
  unfold CheckProofOfWork
  cases hd : hexDecodeStrict s.data with
  | none => rfl
  | some bs => simp [h bs hd]

/-- C5, witness: the one-byte hash string "00" is rejected at the testnet
minimum difficulty. -/
theorem checkProofOfWork_rejects_bad_length_witness :
    CheckProofOfWork "00" 0x1F00FFFF = false :=
  checkProofOfWork_rejects_bad_length "00" 0x1F00FFFF (by
    intro bs hbs
    have h0 : hexDecodeStrict "00".data = some [0] := rfl
    rw [h0] at hbs
    cases hbs
    decide)

/-- C6: the reward is zero once `total_minted` reaches `max_supply`;
otherwise it is the initial reward halved `height / halving_interval`
times, zero when that base drops under `10 ^ (-8)`, and clamped above by
the remaining supply; in particular, on the testnet parameters (initial
reward 50, halving interval 100) with nothing minted, the reward is 25 at
height 100 and 12.5 at height 200.  The hypothesis records that the Go
division `height / halving_interval` requires a nonzero interval. -/
theorem calcBlockReward_closed_form (cfg : NetworkConfig) (minted : ℚ) (h : Nat)
    (_hpos : 0 < cfg.halvingInterval) :
    (CalcBlockReward cfg minted h =
      if cfg.maxSupply ≤ minted then 0
      else if cfg.initialReward / 2 ^ (h / cfg.halvingInterval) < 1 / 100000000 then 0
      else min (cfg.initialReward / 2 ^ (h / cfg.halvingInterval)) (cfg.maxSupply - minted)) ∧
    CalcBlockReward testnetConfig 0 100 = 25 ∧
    CalcBlockReward testnetConfig 0 200 = 25 / 2 := by
  refine ⟨?_, by decide, by decide⟩
  simp only [CalcBlockReward, halveLoop_eq]
  split_ifs with h1 h2 h3
  · rfl
  · rfl
  · exact (min_eq_right h3.le).symm
  · exact (min_eq_left (not_lt.mp h3)).symm

/-- C6, witness: the closed form and the two halving values, instantiated
on the testnet parameters with nothing minted at height 100. -/
theorem calcBlockReward_closed_form_witness :
    (CalcBlockReward testnetConfig 0 100 =
      if testnetConfig.maxSupply ≤ (0 : ℚ) then 0
      else if testnetConfig.initialReward / 2 ^ (100 / testnetConfig.halvingInterval)
          < 1 / 100000000 then 0
      else min (testnetConfig.initialReward / 2 ^ (100 / testnetConfig.halvingInterval))
        (testnetConfig.maxSupply - 0)) ∧
    CalcBlockReward testnetConfig 0 100 = 25 ∧
    CalcBlockReward testnetConfig 0 200 = 25 / 2 :=
  calcBlockReward_closed_form testnetConfig 0 100 (by decide)

/-- C9: `Blockchain.GetBestHeight` answers 0 both on a chain whose store is
empty (store best height −1) and on the freshly bootstrapped chain holding
only the genesis block at height 0, so the two situations are
indistinguishable through this operation. -/
theorem getBestHeight_empty_eq_genesis (cfg : NetworkConfig) (s : Blockchain)
    (hempty : s.committed = []) :
    storeGetBestHeight s = -1 ∧ s.GetBestHeight = 0 ∧
    storeGetBestHeight (initChain cfg) = 0 ∧ (initChain cfg).GetBestHeight = 0 := by
  refine ⟨?_, ?_, rfl, rfl⟩
  · simp [storeGetBestHeight, hempty]
  · simp [Blockchain.GetBestHeight, storeGetBestHeight, hempty]

/-- C9, witness: the pre-genesis chain state over the testnet parameters
against the bootstrapped genesis-only chain. -/
theorem getBestHeight_empty_eq_genesis_witness :
    storeGetBestHeight (preGenesisChain testnetConfig) = -1 ∧
    (preGenesisChain testnetConfig).GetBestHeight = 0 ∧
    storeGetBestHeight (initChain testnetConfig) = 0 ∧
    (initChain testnetConfig).GetBestHeight = 0 :=
  getBestHeight_empty_eq_genesis testnetConfig (preGenesisChain testnetConfig) rfl

/-- Helper: a successful `AddToMempool` call only appends the transaction
to the mempool. -/
theorem addToMempool_none_shape (s : Blockchain) (tx : Transaction)
    (h : (s.AddToMempool tx).1 = none) :
    (s.AddToMempool tx).2 = { s with mempool := s.mempool ++ [tx] } := by
  unfold Blockchain.AddToMempool at *
  split_ifs at h ⊢
  simp_all

/-- Helper: a successful `validateBlock` run certifies the proof-of-work
check and the progressive-floor bound of the block. -/
theorem validateBlock_none_checks (s : Blockchain) (b : Block)
    (h : s.validateBlock b = none) :
    CheckProofOfWork b.hash b.header.bits = true ∧
    BitsToTarget b.header.bits ≤
      BitsToTarget (ProgressiveDifficultyFloor b.header.height
        s.cfg.difficultyEpochBlocks s.cfg.minDifficultyBits) := by
  simp only [Blockchain.validateBlock] at h
  split_ifs at h with h1 h2 h3 h4 h5 h6 h7
  exact ⟨by simpa using h4, not_lt.mp h7⟩

/-- Helper: the shape of a successful `AddBlock` call: the block is
appended to the store, the mempool is filtered by the block's txids, and
validation succeeded. -/
theorem addBlock_none_shape (s : Blockchain) (b : Block) (c : Bool)
    (h : (s.AddBlock b c).1 = none) :
    (s.AddBlock b c).2.mempool
      = s.mempool.filter (fun t => !((b.transactions.map Transaction.txid).contains t.txid)) ∧
    (s.AddBlock b c).2.committed = s.committed ++ [b] ∧
    s.validateBlock b = none := by
  revert h
  unfold Blockchain.AddBlock
  cases hv : s.validateBlock b with
  | some e => exact fun h => Option.noConfusion h
  | none =>
    cases c with
    | false => exact fun h => Option.noConfusion h
    | true => exact fun h => ⟨rfl, rfl, rfl⟩

/-- Helper: the progressive floor at height 0 is the minimum difficulty. -/
theorem progressiveFloor_zero (eb mb : Nat) : ProgressiveDifficultyFloor 0 eb mb = mb := by
  simp [ProgressiveDifficultyFloor]

/-- C1 (amended): every block accepted by `AddBlock` satisfies both
`hash ≤ target(bits)` (through `CheckProofOfWork`) and
`target(bits) ≤ target(progressive_floor(height))`, and the invariant that
every committed block is at or under the floor while every committed block
AFTER the bootstrap genesis also passes proof of work is established by the
bootstrap and preserved by every `AddBlock` call; the genesis block itself
is only guaranteed the floor half, since `CreateGenesisBlock` performs no
proof-of-work check (see the counterexample). -/
theorem committed_blocks_meet_difficulty (cfg : NetworkConfig) (s : Blockchain)
    (b : Block) (c : Bool) (hinv : chainDifficultyInv s.cfg s.committed) :
    chainDifficultyInv cfg (initChain cfg).committed ∧
    chainDifficultyInv s.cfg ((s.AddBlock b c).2).committed := by
  constructor
  · constructor
    · intro x hx
      have hx' : x ∈ [CreateGenesisBlock cfg] := hx
      rw [List.mem_singleton] at hx'
      subst hx'
      simp only [blockMeetsDifficulty, CreateGenesisBlock]
      rw [progressiveFloor_zero]
    · intro x hx
      have hx' : x ∈ ([CreateGenesisBlock cfg] : List Block).drop 1 := hx
      simp at hx'
  · unfold Blockchain.AddBlock
    cases hv : s.validateBlock b with
    | some e => exact hinv
    | none =>
      cases c with
      | false => exact hinv
      | true =>
        obtain ⟨hpow, hfloor⟩ := validateBlock_none_checks s b hv
        constructor
        · intro x hx
          have hx' : x ∈ s.committed ++ [b] := hx
          rcases List.mem_append.mp hx' with hold | hnew
          · exact hinv.1 x hold
          · rw [List.mem_singleton] at hnew
            subst hnew
            exact hfloor
        · intro x hx
          have hx' : x ∈ (s.committed ++ [b]).drop 1 := hx
          cases hc : s.committed with
          | nil =>
            rw [hc] at hx'
            simp at hx'
          | cons hd tl =>
            rw [hc] at hx'
            simp only [List.cons_append, List.drop_succ_cons, List.drop_zero] at hx'
            rcases List.mem_append.mp hx' with hold | hnew
            · refine hinv.2 x ?_
              rw [hc]
              simpa using hold
            · rw [List.mem_singleton] at hnew
              subst hnew
              exact hpow

/-- C1, witness: the invariant holds on the bootstrapped chain over the
easy-difficulty parameters, and is preserved by an `AddBlock` call. -/
theorem committed_blocks_meet_difficulty_witness :
    chainDifficultyInv easyConfig (initChain easyConfig).committed ∧
    chainDifficultyInv easyConfig
      (((initChain easyConfig).AddBlock block1Easy true).2).committed :=
  committed_blocks_meet_difficulty easyConfig (initChain easyConfig) block1Easy true
    (by decide)

set_option maxRecDepth 1000000 in
set_option maxHeartbeats 8000000 in
/-- C1, counterexample to the claim as stated: the genesis block committed
at bootstrap under the testnet parameters (minimum difficulty bits
`0x1F00FFFF`, genesis timestamp 2026-02-24T00:00:00Z) is a committed block
whose header hash, read as a big-endian 256-bit integer, EXCEEDS the target
decoded from its bits field: bootstrap performs no proof-of-work check on
the genesis block. -/
theorem genesis_fails_pow_counterexample :
    CreateGenesisBlock testnetConfig ∈ (initChain testnetConfig).committed ∧
    (hexDecodePartial (CreateGenesisBlock testnetConfig).hash.data).length = 32 ∧
    BitsToTarget (CreateGenesisBlock testnetConfig).header.bits <
      beNat (hexDecodePartial (CreateGenesisBlock testnetConfig).hash.data) :=
  ⟨List.mem_singleton_self _, by decide⟩

set_option maxRecDepth 1000000 in
set_option maxHeartbeats 16000000 in
/-- C2, the code at the failing input: on the bootstrapped easy-difficulty
chain, `AddBlock` of a valid block whose store commit fails returns the
named error, yet the in-memory balances and `total_minted` keep the
mutation (the "miner" balance is 5 and `total_minted` is 5, against 0
before the call), contradicting the required rollback; the mempool and tip
are indeed untouched on this path. -/
theorem addBlock_commit_failure_keeps_mutation :
    ((initChain easyConfig).AddBlock block1Easy false).1 = some "db commit failed" ∧
    getBal (initChain easyConfig).balances "miner" = 0 ∧
    getBal ((initChain easyConfig).AddBlock block1Easy false).2.balances "miner" = 5 ∧
    (initChain easyConfig).totalMinted = 0 ∧
    ((initChain easyConfig).AddBlock block1Easy false).2.totalMinted = 5 ∧
    ((initChain easyConfig).AddBlock block1Easy false).2.mempool
      = (initChain easyConfig).mempool ∧
    ((initChain easyConfig).AddBlock block1Easy false).2.lastBlock
      = (initChain easyConfig).lastBlock := by
  decide

/-- C10: `AddToMempool` performs no duplicate detection: a transaction
admitted twice sits twice in the mempool; and a successful `AddBlock`
removes from the mempool exactly the entries whose txid occurs among the
block's transactions, so both duplicates leave when one copy is included. -/
theorem mempool_duplicates_and_removal (s : Blockchain) (tx : Transaction) (b : Block)
    (h1 : (s.AddToMempool tx).1 = none)
    (h2 : ((s.AddToMempool tx).2.AddToMempool tx).1 = none) :
    ((s.AddToMempool tx).2.AddToMempool tx).2.mempool = s.mempool ++ [tx, tx] ∧
    ((((s.AddToMempool tx).2.AddToMempool tx).2.AddBlock b true).1 = none →
      ((((s.AddToMempool tx).2.AddToMempool tx).2.AddBlock b true).2.mempool
        = (((s.AddToMempool tx).2.AddToMempool tx).2.mempool.filter
            (fun t => !((b.transactions.map Transaction.txid).contains t.txid))) ∧
      (tx.txid ∈ b.transactions.map Transaction.txid →
        ∀ t ∈ ((((s.AddToMempool tx).2.AddToMempool tx).2.AddBlock b true).2.mempool),
          t.txid ≠ tx.txid))) := by
  have e1 := addToMempool_none_shape s tx h1
  have e2 := addToMempool_none_shape _ tx h2
  have emem : ((s.AddToMempool tx).2.AddToMempool tx).2.mempool = s.mempool ++ [tx, tx] := by
    rw [e2, e1]
    simp
  refine ⟨emem, fun hb => ?_⟩
  obtain ⟨hfil, _, _⟩ := addBlock_none_shape _ b true hb
  refine ⟨hfil, fun htxid t ht => ?_⟩
  rw [hfil] at ht
  have := List.mem_filter.mp ht
  intro heq
  rw [heq] at this
  have hcont : (b.transactions.map Transaction.txid).contains tx.txid = true :=
    List.elem_eq_true_of_mem htxid
  rw [hcont] at this
  simp at this

/-- Helper: the structural byte-length worker agrees with `Nat.log`. -/
theorem byteLenGo_eq_log (fuel : Nat) : ∀ n : Nat, n ≤ fuel →
    byteLenGo n fuel = if n = 0 then 0 else Nat.log 256 n + 1 := by
  induction fuel with
  | zero =>
    intro n hn
    interval_cases n
    rfl
  | succ f ih =>
    intro n hn
    by_cases h0 : n = 0
    · simp [h0, byteLenGo]
    · rw [byteLenGo, if_neg h0]
      have hdivle : n / 256 ≤ f := by
        have := Nat.div_lt_self (Nat.pos_of_ne_zero h0) (by norm_num : 1 < 256)
        omega
      rw [ih (n / 256) hdivle]
      by_cases hsmall : n / 256 = 0
      · have hlt : n < 256 := by
          by_contra hcon
          have : 0 < n / 256 := Nat.div_pos (by omega) (by norm_num)
          omega
        rw [if_pos hsmall, if_neg h0, Nat.log_of_lt hlt]
      · have hge : 256 ≤ n := by
          by_contra hcon
          exact hsmall (Nat.div_eq_of_lt (by omega))
        rw [if_neg hsmall, if_neg h0, Nat.log_div_base]
        have hpos : 0 < Nat.log 256 n := Nat.log_pos (by norm_num) hge
        omega

/-- Helper: `byteLen` in terms of `Nat.log`. -/
theorem byteLen_eq_log (n : Nat) :
    byteLen n = if n = 0 then 0 else Nat.log 256 n + 1 :=
  byteLenGo_eq_log n n le_rfl

/-- Helper: the byte length determined by a power-of-256 sandwich. -/
theorem byteLen_of_bounds {n k : Nat} (h1 : 256 ^ k ≤ n) (h2 : n < 256 ^ (k + 1)) :
    byteLen n = k + 1 := by
  have hn0 : n ≠ 0 := by
    have : 0 < 256 ^ k := Nat.pos_pow_of_pos k (by norm_num)
    omega
  rw [byteLen_eq_log, if_neg hn0, Nat.log_eq_of_pow_le_of_lt_pow h1 h2]

/-- Helper: the bounds determined by the byte length. -/
theorem byteLen_bounds {n : Nat} (h : n ≠ 0) :
    256 ^ (byteLen n - 1) ≤ n ∧ n < 256 ^ byteLen n := by
  rw [byteLen_eq_log, if_neg h]
  refine ⟨?_, ?_⟩
  · simpa using Nat.pow_log_le_self 256 h
  · exact Nat.lt_pow_succ_log_self (by norm_num) n

/-- Helper: byte length of a three-byte mantissa shifted left by whole
bytes. -/
theorem byteLen_mantissa_shift {E M : Nat} (hE3 : 3 ≤ E) (hM16 : 2 ^ 16 ≤ M)
    (hM24 : M < 2 ^ 24) : byteLen (M * 256 ^ (E - 3)) = E := by
  have h256 : ((256 : Nat) ^ 2 = 2 ^ 16) ∧ ((256 : Nat) ^ 3 = 2 ^ 24) := by norm_num
  have h1 : 256 ^ (E - 1) ≤ M * 256 ^ (E - 3) := by
    have he : E - 1 = 2 + (E - 3) := by omega
    rw [he, pow_add]
    exact Nat.mul_le_mul_right _ (h256.1 ▸ hM16)
  have h2 : M * 256 ^ (E - 3) < 256 ^ E := by
    have he : E = 3 + (E - 3) := by omega
    calc M * 256 ^ (E - 3) < 2 ^ 24 * 256 ^ (E - 3) :=
          (Nat.mul_lt_mul_right (Nat.pos_pow_of_pos _ (by norm_num))).mpr hM24
      _ = 256 ^ E := by rw [← h256.2, ← pow_add, ← he]
  have := byteLen_of_bounds h1 (by rwa [Nat.sub_add_cancel (by omega : 1 ≤ E)])
  omega

/-- Helper: byte length of a three-byte mantissa shifted right by whole
bytes. -/
theorem byteLen_mantissa_shrink {E M : Nat} (hE1 : 1 ≤ E) (hE3 : E ≤ 3)
    (hM16 : 2 ^ 16 ≤ M) (hM24 : M < 2 ^ 24) : byteLen (M / 256 ^ (3 - E)) = E := by
  have hpos : 0 < 256 ^ (3 - E) := Nat.pos_pow_of_pos _ (by norm_num)
  have h1 : 256 ^ (E - 1) ≤ M / 256 ^ (3 - E) := by
    rw [Nat.le_div_iff_mul_le hpos, ← pow_add]
    have he : E - 1 + (3 - E) = 2 := by omega
    rw [he]
    norm_num
    omega
  have h2 : M / 256 ^ (3 - E) < 256 ^ E := by
    rw [Nat.div_lt_iff_lt_mul hpos, ← pow_add]
    have he : E + (3 - E) = 3 := by omega
    rw [he]
    norm_num
    omega
  have := byteLen_of_bounds h1 (by rwa [Nat.sub_add_cancel hE1])
  omega

/-- C7 (amended): for every canonical compact value whose mantissa does not
overflow, decoding with `CompactToBig` and re-encoding with `BigToCompact`
gives the value back; the `TargetToBits` / `BitsToTarget` pair round-trips
under the additional condition that the exponent is at least 3, because
`TargetToBits` does not left-align the mantissa of a target shorter than
three bytes (see the counterexample). -/
theorem compact_roundtrip_canonical (b : Nat) (hb : canonicalCompact b) :
    BigToCompact (CompactToBig b) = b ∧
    (3 ≤ b / 2 ^ 24 → TargetToBits (BitsToTarget b) = b) := by
  obtain ⟨h32, hE1, hM16, hM23, htrail⟩ := hb
  set E := b / 2 ^ 24 with hE
  set M := b % 2 ^ 24 with hM
  have hM24 : M < 2 ^ 24 := by omega
  have hbeq : b = E * 2 ^ 24 + M := by omega
  have hM23eq : b % 2 ^ 23 = M := by omega
  have hdiv23 : b / 2 ^ 23 = 2 * E := by omega
  constructor
  · -- BigToCompact ∘ CompactToBig
    have hctb : CompactToBig b
        = ((if E ≤ 3 then M / 256 ^ (3 - E) else M * 256 ^ (E - 3) : Nat) : Int) := by
      simp only [CompactToBig]
      rw [hM23eq, ← hE, if_neg (by omega : ¬(b / 2 ^ 23 % 2 = 1))]
    rw [hctb]
    by_cases hE3 : E ≤ 3
    · -- small exponent: the trailing mantissa bytes are zero
      rw [if_pos hE3]
      have hdvd : 256 ^ (3 - E) ∣ M := Nat.dvd_of_mod_eq_zero (htrail hE3)
      have hmul : M / 256 ^ (3 - E) * 256 ^ (3 - E) = M := Nat.div_mul_cancel hdvd
      have hbl : byteLen (M / 256 ^ (3 - E)) = E :=
        byteLen_mantissa_shrink hE1 hE3 hM16 hM24
      have ht0 : M / 256 ^ (3 - E) ≠ 0 := by
        have hp : 0 < 256 ^ (3 - E) := Nat.pos_pow_of_pos _ (by norm_num)
        have := Nat.le_div_iff_mul_le hp |>.mpr
          (by
            have he : 256 ^ (3 - E) ≤ 2 ^ 16 := by
              calc (256 : Nat) ^ (3 - E) ≤ 256 ^ 2 :=
                    Nat.pow_le_pow_right (by norm_num) (by omega)
                _ = 2 ^ 16 := by norm_num
            omega : 1 * 256 ^ (3 - E) ≤ M)
        omega
      simp only [BigToCompact]
      rw [if_neg (by exact_mod_cast ht0), Int.natAbs_ofNat, hbl, if_pos hE3, hmul]
      rw [if_neg (by omega : ¬(E * 2 ^ 24 + M) / 2 ^ 23 % 2 = 1)]
      omega
    · -- large exponent
      rw [if_neg hE3]
      have hbl : byteLen (M * 256 ^ (E - 3)) = E :=
        byteLen_mantissa_shift (by omega) hM16 hM24
      have ht0 : M * 256 ^ (E - 3) ≠ 0 := by positivity
      have hdiv : M * 256 ^ (E - 3) / 256 ^ (E - 3) = M :=
        Nat.mul_div_cancel M (Nat.pos_pow_of_pos _ (by norm_num))
      simp only [BigToCompact]
      rw [if_neg (by exact_mod_cast ht0), Int.natAbs_ofNat, hbl, if_neg hE3, hdiv]
      rw [if_neg (by omega : ¬(E * 2 ^ 24 + M) / 2 ^ 23 % 2 = 1)]
      omega
  · -- TargetToBits ∘ BitsToTarget for exponent ≥ 3
    intro hE3
    have hbt : BitsToTarget b = M * 256 ^ (E - 3) := by
      simp only [BitsToTarget]
      rw [hM23eq, ← hE]
      by_cases hle : E ≤ 3
      · have h3 : E = 3 := by omega
        rw [if_pos hle, h3]
        simp
      · rw [if_neg hle]
    rw [hbt]
    have hbl : byteLen (M * 256 ^ (E - 3)) = E := byteLen_mantissa_shift hE3 hM16 hM24
    have ht0 : M * 256 ^ (E - 3) ≠ 0 := by positivity
    have hdiv : M * 256 ^ (E - 3) / 256 ^ (E - 3) = M :=
      Nat.mul_div_cancel M (Nat.pos_pow_of_pos _ (by norm_num))
    simp only [TargetToBits]
    rw [if_neg ht0, hbl, hdiv, if_neg (by omega : ¬(2 ^ 23 ≤ M))]
    omega

/-- C7, counterexample to the claim as stated: `0x01010000` is canonical
(exponent 1, mantissa `0x010000`: high bit clear, left-aligned, no leading
zero byte), yet encoding its decoded target does not give it back on the
`TargetToBits` / `BitsToTarget` pair: the decoded target is 1 and
`TargetToBits 1 = 0x01000001`. -/
theorem compact_roundtrip_counterexample :
    canonicalCompact 0x01010000 ∧
    TargetToBits (BitsToTarget 0x01010000) ≠ 0x01010000 := by decide

/-- C7, witness: the canonical value `0x04123456` round-trips through both
pairs. -/
theorem compact_roundtrip_canonical_witness :
    BigToCompact (CompactToBig 0x04123456) = 0x04123456 ∧
    (3 ≤ 0x04123456 / 2 ^ 24 → TargetToBits (BitsToTarget 0x04123456) = 0x04123456) :=
  compact_roundtrip_canonical 0x04123456 (by decide)

/-- C10, witness: admitting the concrete coinbase transaction twice on the
bootstrapped easy-difficulty chain, then committing the block that carries
its txid. -/
theorem mempool_duplicates_and_removal_witness :
    (((initChain easyConfig).AddToMempool coinbaseTx1).2.AddToMempool coinbaseTx1).2.mempool
      = (initChain easyConfig).mempool ++ [coinbaseTx1, coinbaseTx1] ∧
    (((((initChain easyConfig).AddToMempool coinbaseTx1).2.AddToMempool coinbaseTx1).2.AddBlock block1Easy true).1 = none →
      ((((initChain easyConfig).AddToMempool coinbaseTx1).2.AddToMempool coinbaseTx1).2.AddBlock block1Easy true).2.mempool
        = (((initChain easyConfig).AddToMempool coinbaseTx1).2.AddToMempool coinbaseTx1).2.mempool.filter
            (fun t => !((block1Easy.transactions.map Transaction.txid).contains t.txid)) ∧
      (coinbaseTx1.txid ∈ block1Easy.transactions.map Transaction.txid →
        ∀ t ∈ ((((initChain easyConfig).AddToMempool coinbaseTx1).2.AddToMempool coinbaseTx1).2.AddBlock block1Easy true).2.mempool,
          t.txid ≠ coinbaseTx1.txid)) :=
  mempool_duplicates_and_removal (initChain easyConfig) coinbaseTx1 block1Easy
    (by decide) (by decide)

/-- Helper: `BitsToTarget` on an exponent/mantissa pair. -/
theorem bitsToTarget_of_parts {E Mm : Nat} (hM : Mm < 2 ^ 23) :
    BitsToTarget (E * 2 ^ 24 + Mm)
      = if E ≤ 3 then Mm / 256 ^ (3 - E) else Mm * 256 ^ (E - 3) := by
  simp only [BitsToTarget]
  have h1 : (E * 2 ^ 24 + Mm) / 2 ^ 24 = E := by omega
  have h2 : (E * 2 ^ 24 + Mm) % 2 ^ 23 = Mm := by omega
  rw [h1, h2]

/-- Helper: decoding the encoding of a target under 256 gives zero
(`TargetToBits` leaves a one-byte mantissa right-aligned, which
`BitsToTarget` then shifts out). -/
theorem decode_encode_one_byte {t : Nat} (h2 : t < 256) :
    BitsToTarget (TargetToBits t) = 0 := by
  by_cases h0 : t = 0
  · subst h0
    decide
  · have hbl : byteLen t = 1 := byteLen_of_bounds (by simpa using Nat.one_le_iff_ne_zero.mpr h0)
      (by simpa using h2)
    have henc : TargetToBits t = 1 * 2 ^ 24 + t := by
      simp only [TargetToBits]
      rw [if_neg h0, hbl]
      have hm : t / 256 ^ (1 - 3) = t := by norm_num
      rw [hm, if_neg (by omega : ¬(2 ^ 23 ≤ t))]
    rw [henc, bitsToTarget_of_parts (by omega : t < 2 ^ 23), if_pos (by norm_num : (1:Nat) ≤ 3)]
    have hlt : t < 256 ^ (3 - 1) := by
      have : (256 : Nat) ^ (3 - 1) = 65536 := by norm_num
      omega
    exact Nat.div_eq_of_lt hlt

/-- Helper: decoding the encoding of a two-byte target divides it by 256. -/
theorem decode_encode_two_bytes {t : Nat} (h1 : 256 ≤ t) (h2 : t < 65536) :
    BitsToTarget (TargetToBits t) = t / 256 := by
  have hbl : byteLen t = 2 := byteLen_of_bounds (by simpa using h1) (by norm_num; omega)
  have henc : TargetToBits t = 2 * 2 ^ 24 + t := by
    simp only [TargetToBits]
    rw [if_neg (by omega : ¬t = 0), hbl]
    have hm : t / 256 ^ (2 - 3) = t := by norm_num
    rw [hm, if_neg (by omega : ¬(2 ^ 23 ≤ t))]
  rw [henc, bitsToTarget_of_parts (by omega : t < 2 ^ 23), if_pos (by norm_num : (2:Nat) ≤ 3)]
  norm_num

/-- Helper: decoding the encoding of a target of at least three bytes
clears its low bytes (one byte more when the top mantissa bit forces the
exponent bump). -/
theorem decode_encode_big {t L : Nat} (hL : byteLen t = L) (h3 : 3 ≤ L) :
    BitsToTarget (TargetToBits t)
      = if 2 ^ 23 ≤ t / 256 ^ (L - 3) then t / 256 ^ (L - 2) * 256 ^ (L - 2)
        else t / 256 ^ (L - 3) * 256 ^ (L - 3) := by
  have h0 : t ≠ 0 := by
    intro h
    rw [h] at hL
    simp [byteLen, byteLenGo] at hL
    omega
  obtain ⟨hlow, hhigh⟩ := byteLen_bounds h0
  rw [hL] at hlow hhigh
  have hmlow : 256 ^ 2 ≤ t / 256 ^ (L - 3) := by
    rw [Nat.le_div_iff_mul_le (Nat.pos_pow_of_pos _ (by norm_num)), ← pow_add]
    have he : 2 + (L - 3) = L - 1 := by omega
    rw [he]
    exact hlow
  have hmhigh : t / 256 ^ (L - 3) < 256 ^ 3 := by
    rw [Nat.div_lt_iff_lt_mul (Nat.pos_pow_of_pos _ (by norm_num)), ← pow_add]
    have he : 3 + (L - 3) = L := by omega
    rw [he]
    exact hhigh
  have hdd : t / 256 ^ (L - 3) / 256 = t / 256 ^ (L - 2) := by
    rw [Nat.div_div_eq_div_mul]
    congr 1
    rw [← pow_succ]
    congr 1
    omega
  simp only [TargetToBits]
  rw [if_neg h0, hL]
  by_cases hadj : 2 ^ 23 ≤ t / 256 ^ (L - 3)
  · rw [if_pos hadj, if_pos hadj, hdd]
    have hsm : t / 256 ^ (L - 2) < 2 ^ 23 := by
      rw [← hdd]
      have : t / 256 ^ (L - 3) < 256 ^ 3 := hmhigh
      omega
    rw [bitsToTarget_of_parts hsm, if_neg (by omega : ¬(L + 1 ≤ 3))]
    congr 1
  · rw [if_neg hadj, if_neg hadj]
    rw [bitsToTarget_of_parts (by omega : t / 256 ^ (L - 3) < 2 ^ 23)]
    by_cases hL3 : L ≤ 3
    · have : L = 3 := by omega
      subst this
      simp
    · rw [if_neg hL3]

/-- Helper: the decode-encode composition never grows a target. -/
theorem decode_encode_le (t : Nat) : BitsToTarget (TargetToBits t) ≤ t := by
  by_cases h1 : t < 256
  · rw [decode_encode_one_byte h1]
    exact Nat.zero_le t
  · by_cases h2 : t < 65536
    · rw [decode_encode_two_bytes (by omega) h2]
      exact Nat.div_le_self t 256
    · have h0 : t ≠ 0 := by omega
      obtain ⟨hlow, hhigh⟩ := byteLen_bounds h0
      have h3 : 3 ≤ byteLen t := by
        by_contra hc
        have : t < 256 ^ byteLen t := hhigh
        have : (256 : Nat) ^ byteLen t ≤ 256 ^ 2 :=
          Nat.pow_le_pow_right (by norm_num) (by omega)
        norm_num at this
        omega
      rw [decode_encode_big rfl h3]
      split_ifs <;> exact Nat.div_mul_le_self _ _

/-- Helper: the decode-encode composition of a target of at least three
bytes stays at or above the next-lower power of 256. -/
theorem decode_encode_lower {t L : Nat} (hL : byteLen t = L) (h3 : 3 ≤ L) :
    256 ^ (L - 1) ≤ BitsToTarget (TargetToBits t) := by
  have h0 : t ≠ 0 := by
    intro h
    rw [h] at hL
    simp [byteLen, byteLenGo] at hL
    omega
  obtain ⟨hlow, hhigh⟩ := byteLen_bounds h0
  rw [hL] at hlow hhigh
  rw [decode_encode_big hL h3]
  by_cases hadj : 2 ^ 23 ≤ t / 256 ^ (L - 3)
  · rw [if_pos hadj]
    have hstep : 2 ^ 15 ≤ t / 256 ^ (L - 2) := by
      rw [Nat.le_div_iff_mul_le (Nat.pos_pow_of_pos _ (by norm_num))]
      have ht : 2 ^ 23 * 256 ^ (L - 3) ≤ t := by
        have := (Nat.le_div_iff_mul_le (Nat.pos_pow_of_pos (L - 3)
          (by norm_num : (0:Nat) < 256))).mp hadj
        linarith [this]
      calc 2 ^ 15 * 256 ^ (L - 2) = 2 ^ 23 * 256 ^ (L - 3) := by
            have he : L - 2 = (L - 3) + 1 := by omega
            rw [he, pow_succ]
            ring
        _ ≤ t := ht
    calc 256 ^ (L - 1) = 256 * 256 ^ (L - 2) := by
          rw [← pow_succ']
          congr 1
          omega
      _ ≤ 2 ^ 15 * 256 ^ (L - 2) := Nat.mul_le_mul_right _ (by norm_num)
      _ ≤ t / 256 ^ (L - 2) * 256 ^ (L - 2) := Nat.mul_le_mul_right _ hstep
  · rw [if_neg hadj]
    have hmlow : 256 ^ 2 ≤ t / 256 ^ (L - 3) := by
      rw [Nat.le_div_iff_mul_le (Nat.pos_pow_of_pos _ (by norm_num)), ← pow_add]
      have he : 2 + (L - 3) = L - 1 := by omega
      rw [he]
      exact hlow
    calc 256 ^ (L - 1) = 256 ^ 2 * 256 ^ (L - 3) := by
          rw [← pow_add]
          congr 1
          omega
      _ ≤ t / 256 ^ (L - 3) * 256 ^ (L - 3) := Nat.mul_le_mul_right _ hmlow

/-- Helper: the decode-encode composition is monotone. -/
theorem decode_encode_mono {x y : Nat} (hxy : x ≤ y) :
    BitsToTarget (TargetToBits x) ≤ BitsToTarget (TargetToBits y) := by
  by_cases hy1 : y < 256
  · rw [decode_encode_one_byte (by omega), decode_encode_one_byte hy1]
  · by_cases hy2 : y < 65536
    · rw [decode_encode_two_bytes (by omega) hy2]
      by_cases hx1 : x < 256
      · rw [decode_encode_one_byte hx1]
        exact Nat.zero_le _
      · rw [decode_encode_two_bytes (by omega) (by omega)]
        exact Nat.div_le_div_right hxy
    · have hy0 : y ≠ 0 := by omega
      obtain ⟨hylow, hyhigh⟩ := byteLen_bounds hy0
      have hLy3 : 3 ≤ byteLen y := by
        by_contra hc
        have h1 : (256 : Nat) ^ byteLen y ≤ 256 ^ 2 :=
          Nat.pow_le_pow_right (by norm_num) (by omega)
        norm_num at h1
        omega
      have hylower := decode_encode_lower rfl hLy3
      by_cases hx2 : x < 65536
      · calc BitsToTarget (TargetToBits x) ≤ x := decode_encode_le x
          _ ≤ 256 ^ 2 := by norm_num; omega
          _ ≤ 256 ^ (byteLen y - 1) := Nat.pow_le_pow_right (by norm_num) (by omega)
          _ ≤ _ := hylower
      · have hx0 : x ≠ 0 := by omega
        obtain ⟨hxlow, hxhigh⟩ := byteLen_bounds hx0
        have hLx3 : 3 ≤ byteLen x := by
          by_contra hc
          have h1 : (256 : Nat) ^ byteLen x ≤ 256 ^ 2 :=
            Nat.pow_le_pow_right (by norm_num) (by omega)
          norm_num at h1
          omega
        have hLxy : byteLen x ≤ byteLen y := by
          by_contra hc
          have h1 : (256 : Nat) ^ byteLen y ≤ 256 ^ (byteLen x - 1) :=
            Nat.pow_le_pow_right (by norm_num) (by omega)
          omega
        rcases Nat.lt_or_ge (byteLen x) (byteLen y) with hlt | hge
        · calc BitsToTarget (TargetToBits x) ≤ x := decode_encode_le x
            _ ≤ 256 ^ (byteLen y - 1) := le_of_lt (lt_of_lt_of_le hxhigh
              (Nat.pow_le_pow_right (by norm_num) (by omega)))
            _ ≤ _ := hylower
        · have hLeq : byteLen y = byteLen x := by omega
          set L := byteLen x with hLdef
          rw [decode_encode_big rfl hLx3, decode_encode_big hLeq (by omega)]
          have hmxy : x / 256 ^ (L - 3) ≤ y / 256 ^ (L - 3) := Nat.div_le_div_right hxy
          by_cases hax : 2 ^ 23 ≤ x / 256 ^ (L - 3)
          · rw [if_pos hax, if_pos (le_trans hax hmxy)]
            exact Nat.mul_le_mul_right _ (Nat.div_le_div_right hxy)
          · rw [if_neg hax]
            by_cases hay : 2 ^ 23 ≤ y / 256 ^ (L - 3)
            · rw [if_pos hay]
              have hxup : x / 256 ^ (L - 3) * 256 ^ (L - 3) < 2 ^ 23 * 256 ^ (L - 3) :=
                (Nat.mul_lt_mul_right (Nat.pos_pow_of_pos _ (by norm_num))).mpr
                  (by omega)
              have hydown : 2 ^ 23 * 256 ^ (L - 3) ≤ y / 256 ^ (L - 2) * 256 ^ (L - 2) := by
                have hstep : 2 ^ 15 ≤ y / 256 ^ (L - 2) := by
                  rw [Nat.le_div_iff_mul_le (Nat.pos_pow_of_pos _ (by norm_num))]
                  have ht : 2 ^ 23 * 256 ^ (L - 3) ≤ y :=
                    (Nat.le_div_iff_mul_le (Nat.pos_pow_of_pos (L - 3)
                      (by norm_num : (0:Nat) < 256))).mp hay
                  calc 2 ^ 15 * 256 ^ (L - 2) = 2 ^ 23 * 256 ^ (L - 3) := by
                        have he : L - 2 = (L - 3) + 1 := by omega
                        rw [he, pow_succ]
                        ring
                    _ ≤ y := ht
                calc 2 ^ 23 * 256 ^ (L - 3) = 2 ^ 15 * 256 ^ (L - 2) := by
                      have he : L - 2 = (L - 3) + 1 := by omega
                      rw [he, pow_succ]
                      ring
                  _ ≤ y / 256 ^ (L - 2) * 256 ^ (L - 2) := Nat.mul_le_mul_right _ hstep
              exact le_of_lt (lt_of_lt_of_le hxup hydown)
            · rw [if_neg hay]
              exact Nat.mul_le_mul_right _ hmxy

/-- Helper: the floor is the minimum difficulty throughout epoch zero. -/
theorem progressiveFloor_epoch0 {h eb : Nat} (mb : Nat) (hz : h / eb = 0) :
    ProgressiveDifficultyFloor h eb mb = mb := by
  simp only [ProgressiveDifficultyFloor, hz]
  split_ifs <;> rfl

/-- Helper: the floor from epoch one on, in clamped-shift form. -/
theorem progressiveFloor_epoch (h eb mb : Nat) (he : 0 < eb) (h1 : h / eb ≠ 0) :
    ProgressiveDifficultyFloor h eb mb
      = TargetToBits (max (BitsToTarget mb / 2 ^ min (h / eb) 60) 1) := by
  simp only [ProgressiveDifficultyFloor]
  rw [if_neg (by omega : ¬eb = 0), if_neg h1]
  have he1 : (if h / eb > 60 then 60 else h / eb) = min (h / eb) 60 := by
    split_ifs with hgt <;> omega
  rw [he1]
  have he2 : (if BitsToTarget mb / 2 ^ min (h / eb) 60 = 0 then 1
      else BitsToTarget mb / 2 ^ min (h / eb) 60)
      = max (BitsToTarget mb / 2 ^ min (h / eb) 60) 1 := by
    split_ifs with hz
    · rw [hz]
      simp
    · exact (Nat.max_eq_left (Nat.one_le_iff_ne_zero.mpr hz)).symm
  rw [he2]

/-- C8: the progressive difficulty floor is monotone: for heights
`h1 < h2` (any positive epoch length, any minimum bits) the decoded floor
target at `h2` is at most the decoded floor target at `h1`; the epoch
count is clamped at 60, so from epoch 60 on the floor equals the floor at
height `60 * epoch_blocks`; and from epoch one on the encoded floor target
is kept strictly positive by the underflow clamp. -/
theorem progressiveFloor_monotone (epochBlocks minBits h1 h2 : Nat)
    (he : 0 < epochBlocks) (hlt : h1 < h2) :
    BitsToTarget (ProgressiveDifficultyFloor h2 epochBlocks minBits) ≤
      BitsToTarget (ProgressiveDifficultyFloor h1 epochBlocks minBits) ∧
    (60 ≤ h1 / epochBlocks →
      ProgressiveDifficultyFloor h1 epochBlocks minBits
        = ProgressiveDifficultyFloor (60 * epochBlocks) epochBlocks minBits) ∧
    (1 ≤ h1 / epochBlocks → ∃ t, 0 < t ∧
      ProgressiveDifficultyFloor h1 epochBlocks minBits = TargetToBits t) := by
  have hd1 : h1 / epochBlocks ≤ h2 / epochBlocks := Nat.div_le_div_right (le_of_lt hlt)
  refine ⟨?_, ?_, ?_⟩
  · by_cases he2z : h2 / epochBlocks = 0
    · rw [progressiveFloor_epoch0 minBits he2z,
        progressiveFloor_epoch0 minBits
          (by rw [he2z] at hd1; exact Nat.le_zero.mp hd1)]
    · by_cases he1z : h1 / epochBlocks = 0
      · rw [progressiveFloor_epoch0 minBits he1z, progressiveFloor_epoch h2 _ _ he he2z]
        rcases Nat.eq_zero_or_pos (BitsToTarget minBits) with hTz | hTp
        · have hmax : max (BitsToTarget minBits / 2 ^ min (h2 / epochBlocks) 60) 1 = 1 := by
            rw [hTz]
            simp
          rw [hmax, decode_encode_one_byte (by norm_num)]
          omega
        · calc BitsToTarget (TargetToBits
                (max (BitsToTarget minBits / 2 ^ min (h2 / epochBlocks) 60) 1))
              ≤ max (BitsToTarget minBits / 2 ^ min (h2 / epochBlocks) 60) 1 :=
                decode_encode_le _
            _ ≤ BitsToTarget minBits := by
                have := Nat.div_le_self (BitsToTarget minBits) (2 ^ min (h2 / epochBlocks) 60)
                omega
      · rw [progressiveFloor_epoch h1 _ _ he he1z, progressiveFloor_epoch h2 _ _ he he2z]
        apply decode_encode_mono
        have hE : min (h1 / epochBlocks) 60 ≤ min (h2 / epochBlocks) 60 := by omega
        have hdiv : BitsToTarget minBits / 2 ^ min (h2 / epochBlocks) 60
            ≤ BitsToTarget minBits / 2 ^ min (h1 / epochBlocks) 60 :=
          Nat.div_le_div_left (Nat.pow_le_pow_right (by norm_num) hE)
            (Nat.pos_pow_of_pos _ (by norm_num))
        omega
  · intro h60
    have hm1 : 60 * epochBlocks / epochBlocks = 60 := Nat.mul_div_cancel 60 he
    have hne1 : h1 / epochBlocks ≠ 0 := by
      intro hz
      rw [hz] at h60
      exact absurd h60 (by norm_num)
    have hne2 : 60 * epochBlocks / epochBlocks ≠ 0 := by
      rw [hm1]
      norm_num
    rw [progressiveFloor_epoch h1 _ _ he hne1,
      progressiveFloor_epoch (60 * epochBlocks) _ _ he hne2, hm1]
    rw [Nat.min_eq_right h60, Nat.min_self]
  · intro hge
    have hne1 : h1 / epochBlocks ≠ 0 := by
      intro hz
      rw [hz] at hge
      exact absurd hge (by norm_num)
    exact ⟨max (BitsToTarget minBits / 2 ^ min (h1 / epochBlocks) 60) 1, by omega,
      progressiveFloor_epoch h1 _ _ he hne1⟩

/-- C8, witness: testnet parameters (epoch length 1000, minimum bits
`0x1F00FFFF`) at heights 1500 and 2500. -/
theorem progressiveFloor_monotone_witness :
    BitsToTarget (ProgressiveDifficultyFloor 2500 1000 0x1F00FFFF) ≤
      BitsToTarget (ProgressiveDifficultyFloor 1500 1000 0x1F00FFFF) ∧
    (60 ≤ 1500 / 1000 →
      ProgressiveDifficultyFloor 1500 1000 0x1F00FFFF
        = ProgressiveDifficultyFloor (60 * 1000) 1000 0x1F00FFFF) ∧
    (1 ≤ 1500 / 1000 → ∃ t, 0 < t ∧
      ProgressiveDifficultyFloor 1500 1000 0x1F00FFFF = TargetToBits t) :=
  progressiveFloor_monotone 1000 0x1F00FFFF 1500 2500 (by decide) (by decide)

/-- C3, witness: the admission characterization instantiated on the
bootstrapped testnet chain and the concrete coinbase transaction (admitted,
since it is neither a transfer nor a stake). -/
theorem addToMempool_rejects_iff_witness :
    (((initChain testnetConfig).AddToMempool coinbaseTx1).1.isSome ↔
      (coinbaseTx1.txType = "transfer" ∧
        getBal (initChain testnetConfig).balances coinbaseTx1.txFrom
          < coinbaseTx1.amount + coinbaseTx1.fee) ∨
      (coinbaseTx1.txType = "stake" ∧
        (getBal (initChain testnetConfig).balances coinbaseTx1.txFrom
            - GetStake (initChain testnetConfig).stakes coinbaseTx1.txFrom
            < coinbaseTx1.amount ∨
         coinbaseTx1.amount < (initChain testnetConfig).cfg.minStakeAmount ∨
         GetStake (initChain testnetConfig).stakes coinbaseTx1.txFrom + coinbaseTx1.amount
            < (initChain testnetConfig).cfg.posMinThreshold))) ∧
    (((initChain testnetConfig).AddToMempool coinbaseTx1).1.isSome →
      ((initChain testnetConfig).AddToMempool coinbaseTx1).2 = initChain testnetConfig) ∧
    (((initChain testnetConfig).AddToMempool coinbaseTx1).1 = none →
      ((initChain testnetConfig).AddToMempool coinbaseTx1).2
        = { initChain testnetConfig with
            mempool := (initChain testnetConfig).mempool ++ [coinbaseTx1] }) :=
  addToMempool_rejects_iff (initChain testnetConfig) coinbaseTx1
